import Mathlib

/-!
# dbx-sync: a shallow embedding of `main.go`

The program walks a local directory, lists a Dropbox folder, and uploads every
local file that is missing remotely or older remotely than locally.

The embedding follows `main.go` function by function (`main`, `uploadFile`,
`getRemoteFileList`, `getLocalFileList`).  The Go standard library functions the
program calls (`strings.Replace`, `strings.Contains`, `path.Join`, `path.Clean`,
`filepath.Walk`, `time.Time.Before`, `time.Time.Unix`, `time.Unix`) are embedded
from their library sources for a Unix host (separator `/`).  The Dropbox client
and the local file system are parameters: a client is a state machine answering
requests, the file system is a pair of oracles plus the tree a traversal meets.
-/

set_option autoImplicit false

namespace DbxSync

/-! ## time.Time -/

/-- A Go `time.Time` instant: whole seconds since the Unix epoch and a nanosecond
part in `[0, 999999999]`.  Locations do not take part in comparisons, and file
and server times carry no monotonic clock reading. -/
structure Time where
  sec : Int
  nsec : Nat
  nsec_lt : nsec < 1000000000
deriving DecidableEq

/-- Go `t.Before(u)`: the instant `t` is strictly before `u`. -/
def Time.Before (t u : Time) : Bool :=
  decide (t.sec < u.sec) || (decide (t.sec = u.sec) && decide (t.nsec < u.nsec))

/-- Go `t.Unix()`: the number of whole seconds since the epoch. -/
def Time.Unix (t : Time) : Int := t.sec

/-- Go `time.Unix(sec, 0)`: the instant `sec` seconds after the epoch. -/
def timeUnix (sec : Int) : Time := ⟨sec, 0, by decide⟩

/-- Total nanoseconds since the epoch, used to state bounds on instants. -/
def Time.nanos (t : Time) : Int := t.sec * 1000000000 + t.nsec

/-! ## Inventories: `map[string]time.Time` -/

/-- A Go `map[string]time.Time`, kept as an association list with unique keys. -/
abbrev Inventory := List (String × Time)

/-- Map lookup `v, ok := m[k]`. -/
def Inventory.get : Inventory → String → Option Time
  | [], _ => none
  | (k1, v) :: rest, k => if k1 = k then some v else Inventory.get rest k

/-- Map assignment `m[k] = v`. -/
def Inventory.set : Inventory → String → Time → Inventory
  | [], k, v => [(k, v)]
  | (k1, v1) :: rest, k, v =>
    if k1 = k then (k1, v) :: rest else (k1, v1) :: Inventory.set rest k v

/-! ## strings.Replace, strings.Contains -/

/-- The scan of `strings.Replace(s, old, new, -1)` for a non-empty `old`: `skip`
counts the characters of a match that are still to be dropped. -/
def replaceScan (old new : List Char) : Nat → List Char → List Char
  | _, [] => []
  | skip + 1, _ :: cs => replaceScan old new skip cs
  | 0, c :: cs =>
    if old.isPrefixOf (c :: cs) then new ++ replaceScan old new (old.length - 1) cs
    else c :: replaceScan old new 0 cs

/-- Go `strings.Replace(s, old, new, -1)` on character lists: every
non-overlapping occurrence of `old`, found left to right, is replaced by `new`;
an empty `old` matches before every character and at the end. -/
def replaceAll (s old new : List Char) : List Char :=
  if old = new then s
  else if old = [] then new ++ s.flatMap (fun c => c :: new)
  else replaceScan old new 0 s

/-- Go `strings.Replace(s, old, new, -1)`. -/
def stringsReplace (s old new : String) : String :=
  ⟨replaceAll s.data old.data new.data⟩

/-- Substring test on character lists. -/
def containsL (sub : List Char) : List Char → Bool
  | [] => sub.isEmpty
  | c :: cs => sub.isPrefixOf (c :: cs) || containsL sub cs

/-- Go `strings.Contains(s, substr)`. -/
def stringsContains (s substr : String) : Bool := containsL substr.data s.data

/-! ## path.Clean, path.Join -/

/-- The inner loop of the `..` case of `path.Clean`:
`for out.w > dotdot && out.index(out.w) != '/' { out.w-- }`. -/
def backtrack (out : List Char) (dotdot : Nat) : Nat → Nat
  | 0 => 0
  | w + 1 =>
    if dotdot < w + 1 ∧ out.get? (w + 1) ≠ some '/' then backtrack out dotdot w else w + 1

/-- The main loop of `path.Clean`.  `rest` is `path[r:]`, `out` is the written
part of the buffer (`out.w = out.length`), `dotdot` is the index where `..` must
stop.  Every iteration consumes at least one character of `rest`; the first
argument bounds the number of iterations. -/
def cleanLoop (rooted : Bool) : Nat → List Char → List Char → Nat → List Char
  | 0, _, out, _ => out
  | _ + 1, [], out, _ => out
  | fuel + 1, c :: rest, out, dotdot =>
    if c = '/' then
      cleanLoop rooted fuel rest out dotdot
    else if c = '.' ∧ (rest = [] ∨ rest.head? = some '/') then
      cleanLoop rooted fuel rest out dotdot
    else if c = '.' ∧ rest.head? = some '.' ∧
        (rest.tail = [] ∨ rest.tail.head? = some '/') then
      if dotdot < out.length then
        cleanLoop rooted fuel rest.tail
          (out.take (backtrack out dotdot (out.length - 1))) dotdot
      else if !rooted then
        let out1 := if 0 < out.length then out ++ ['/'] else out
        let out2 := out1 ++ ['.', '.']
        cleanLoop rooted fuel rest.tail out2 out2.length
      else
        cleanLoop rooted fuel rest.tail out dotdot
    else
      let out1 :=
        if (rooted ∧ out.length ≠ 1) ∨ (¬ rooted ∧ out.length ≠ 0) then out ++ ['/']
        else out
      cleanLoop rooted fuel ((c :: rest).dropWhile (fun x => x ≠ '/'))
        (out1 ++ (c :: rest).takeWhile (fun x => x ≠ '/')) dotdot

/-- Go `path.Clean` on character lists. -/
def cleanL (p : List Char) : List Char :=
  if p = [] then ['.']
  else
    let rooted := decide (p.head? = some '/')
    let out :=
      if rooted then cleanLoop true p.length p.tail ['/'] 1
      else cleanLoop false p.length p [] 0
    if out = [] then ['.'] else out

/-- Go `path.Clean`. -/
def pathClean (p : String) : String := ⟨cleanL p.data⟩

/-- Go `path.Join(a, b)` on character lists: the non-empty elements joined by
`/`, then cleaned; the empty string when both are empty. -/
def joinL (a b : List Char) : List Char :=
  if a = [] then (if b = [] then [] else cleanL b)
  else cleanL (a ++ '/' :: b)

/-- Go `path.Join(a, b)` (and, on a Unix host, `filepath.Join(a, b)`). -/
def pathJoin (a b : String) : String := ⟨joinL a.data b.data⟩

/-! ## The reconciler of `main` -/

/-- The destination path of `main`, line 69:
`path.Join(destPrefix, strings.Replace(f, sourcePath, "", -1))`. -/
def destOf (destPrefix sourcePath f : String) : String :=
  pathJoin destPrefix (stringsReplace f sourcePath "")

/-- The guard of `main`, line 70:
`rmt, ok := remoteFilesPresent[dest]; ok && !cfg.ForceOverwrite && !rmt.Before(lmt)`.
When it holds the loop body executes `continue`. -/
def skips (remoteFilesPresent : Inventory) (forceOverwrite : Bool) (dest : String)
    (lmt : Time) : Bool :=
  match remoteFilesPresent.get dest with
  | some rmt => !forceOverwrite && !rmt.Before lmt
  | none => false

/-! ## The Dropbox client -/

/-- An entry of a folder listing (`files.IsMetadata`): file, folder or deleted
entry.  Only the fields the program reads are kept. -/
inductive Metadata where
  | file (PathDisplay : String) (ClientModified : Time)
  | folder (PathDisplay : String)
  | deleted (PathDisplay : String)
deriving DecidableEq

/-- The SDK's `files.ListFolderResult`. -/
structure ListFolderResult where
  Entries : List Metadata
  Cursor : String
  HasMore : Bool
deriving DecidableEq

/-- The SDK's `files.ListFolderArg`. -/
structure ListFolderArg where
  Path : String
  Recursive : Bool
deriving DecidableEq

/-- The tag of the SDK's `files.WriteMode`. -/
inductive WriteMode where
  | add
  | overwrite
  | update
deriving DecidableEq

/-- The SDK's `files.CommitInfo`. -/
structure CommitInfo where
  Path : String
  Mode : WriteMode
  ClientModified : Time
deriving DecidableEq

/-- The SDK's `files.Client` as seen by this single-threaded caller: a state
machine over a remote state `σ`.  A Go `error` is its message; `Upload` returns
`none` for a nil error. -/
structure Client (σ : Type) where
  ListFolder : σ → ListFolderArg → Except String ListFolderResult × σ
  ListFolderContinue : σ → String → Except String ListFolderResult × σ
  Upload : σ → CommitInfo → String → Option String × σ

/-! ## The local file system -/

/-- The part of `os.FileInfo` the program reads. -/
structure FileInfo where
  IsDir : Bool
  ModTime : Time
deriving DecidableEq

/-- What a traversal meets below a path: a non-directory, a directory with the
outcome of reading its names and its entries, or a name whose `Lstat` fails. -/
inductive Node where
  | file (name : String) (modTime : Time)
  | dir (name : String) (modTime : Time) (readErr : Option String) (children : List Node)
  | broken (name : String) (err : String)

/-- The name of a directory entry. -/
def Node.name : Node → String
  | .file n _ => n
  | .dir n _ _ _ => n
  | .broken n _ => n

/-- Whether `Lstat` reports a directory. -/
def Node.isDir : Node → Bool
  | .dir _ _ _ _ => true
  | _ => false

/-- The local file system: `os.Stat`, `os.Open` (yielding the content), and the
tree `filepath.Walk` meets from a root path. -/
structure FileSystem where
  Stat : String → Except String FileInfo
  Open : String → Except String String
  Tree : String → Node

/-- The externally visible actions of a run, each with the error it returned. -/
inductive Event where
  | stat (name : String) (err : Option String)
  | fileOpen (name : String) (err : Option String)
  | fileClose (name : String)
  | walk (root : String)
  | listFolder (arg : ListFolderArg) (err : Option String)
  | listFolderContinue (cursor : String) (err : Option String)
  | upload (arg : CommitInfo) (content : String) (err : Option String)
deriving DecidableEq

/-- A Go computation that either returns or panics. -/
inductive Panics (α : Type) where
  | done (a : α)
  | panic (msg : String)
deriving DecidableEq

/-! ## filepath.Walk -/

/-- The error a `filepath.WalkFunc` returns. -/
inductive WalkErr where
  | skipDir
  | skipAll
  | other (msg : String)
deriving DecidableEq

/-- A `filepath.WalkFunc` acting on an accumulator `α` (the variables the
closure captures): path, file info (possibly nil), incoming error. -/
abbrev WalkFunc (α : Type) :=
  α → String → Option FileInfo → Option String → Panics (α × Option WalkErr)

/-- Whether the loop over the names of a directory returns the error `err` that
the visit of the entry `n` gave.  After a failed `Lstat`:
`err != nil && err != SkipDir`; after `walk`:
`err != nil && (!fileInfo.IsDir() || err != SkipDir)`. -/
def stopsWalk (n : Node) (err : Option WalkErr) : Bool :=
  match n with
  | .broken _ _ => err.isSome && decide (err ≠ some .skipDir)
  | _ => err.isSome && (!n.isDir || decide (err ≠ some .skipDir))

mutual
/-- Go `filepath.walk(path, info, walkFn)`, together with the caller's
`walkFn(filename, nil, err)` for a name whose `Lstat` failed. -/
def walk {α : Type} (walkFn : WalkFunc α) (acc : α) (path : String) :
    Node → Panics (α × Option WalkErr)
  | .broken _ e => walkFn acc path none (some e)
  | .file _ mt => walkFn acc path (some ⟨false, mt⟩) none
  | .dir _ mt readErr children =>
    match walkFn acc path (some ⟨true, mt⟩) readErr with
    | .panic m => .panic m
    | .done (acc1, err1) =>
      if readErr.isSome ∨ err1.isSome then .done (acc1, err1)
      else walkNames walkFn acc1 path children
/-- The loop `for _, name := range names` of `filepath.walk`. -/
def walkNames {α : Type} (walkFn : WalkFunc α) (acc : α) (path : String) :
    List Node → Panics (α × Option WalkErr)
  | [] => .done (acc, none)
  | n :: rest =>
    match walk walkFn acc (pathJoin path n.name) n with
    | .panic m => .panic m
    | .done (acc1, err) =>
      if stopsWalk n err then .done (acc1, err)
      else walkNames walkFn acc1 path rest
end

/-- Go `filepath.Walk(root, fn)`: the accumulator and the returned error.
(Older library versions call the function for an unreadable directory
twice, first without and then with the read error; a function that returns nil
both times, as the closure of this program does, sees the same traversal.) -/
def Walk {α : Type} (walkFn : WalkFunc α) (acc : α) (root : String) (tree : Node) :
    Panics (α × Option String) :=
  match walk walkFn acc root tree with
  | .panic m => .panic m
  | .done (acc1, some (.other e)) => .done (acc1, some e)
  | .done (acc1, _) => .done (acc1, none)

/-! ## getLocalFileList -/

/-- The closure passed to `filepath.Walk` in `getLocalFileList` (lines 146-151).
It reads `f.IsDir()` without looking at `err`, so a nil `f` panics, and it
always returns nil. -/
def localWalkFn : WalkFunc Inventory := fun fileList path f _err =>
  match f with
  | none => .panic "invalid memory address or nil pointer dereference"
  | some info =>
    if !info.IsDir then .done (fileList.set path info.ModTime, none)
    else .done (fileList, none)

/-- Go `getLocalFileList(prefix)`: the file list and the error of the walk. -/
def getLocalFileList (fs : FileSystem) (pfx : String) : Panics (Inventory × Option String) :=
  Walk localWalkFn [] pfx (fs.Tree pfx)

/-! ## getRemoteFileList -/

/-- The result of a function that returns an error value, with the client state
it leaves and the actions it performed. -/
structure Outcome (σ α : Type) where
  val : α
  err : Option String
  state : σ
  trace : List Event

/-- The body of `for _, f := range lfr.Entries` (lines 124-128): a file entry is
stored under its display path, other entries are passed over. -/
def collectEntry (remoteFilesPresent : Inventory) : Metadata → Inventory
  | .file pathDisplay clientModified => remoteFilesPresent.set pathDisplay clientModified
  | _ => remoteFilesPresent

/-- The loop `for { ... }` of `getRemoteFileList` (lines 123-138), started with
the page `lfr`.  The first argument bounds the number of pages read; `none`
means the server announced more pages than that. -/
def listLoop {σ : Type} (dbx : Client σ) :
    Nat → ListFolderResult → Inventory → σ → List Event → Option (Outcome σ Inventory)
  | 0, _, _, _, _ => none
  | fuel + 1, lfr, remoteFilesPresent, s, tr =>
    let present := lfr.Entries.foldl collectEntry remoteFilesPresent
    if !lfr.HasMore then some ⟨present, none, s, tr⟩
    else
      match dbx.ListFolderContinue s lfr.Cursor with
      | (.error e, s1) =>
        some ⟨present, some e, s1, tr ++ [.listFolderContinue lfr.Cursor (some e)]⟩
      | (.ok lfr1, s1) =>
        listLoop dbx fuel lfr1 present s1 (tr ++ [.listFolderContinue lfr.Cursor none])

/-- Go `getRemoteFileList(dbx, prefix)`. -/
def getRemoteFileList {σ : Type} (dbx : Client σ) (fuel : Nat) (s : σ) (pfx : String) :
    Option (Outcome σ Inventory) :=
  let arg : ListFolderArg := ⟨pfx, true⟩
  match dbx.ListFolder s arg with
  | (.error e, s1) =>
    if stringsContains e "path/not_found/" then some ⟨[], none, s1, [.listFolder arg (some e)]⟩
    else some ⟨[], some e, s1, [.listFolder arg (some e)]⟩
  | (.ok lfr, s1) => listLoop dbx fuel lfr [] s1 [.listFolder arg none]

/-! ## uploadFile -/

/-- Go `uploadFile(dbx, sourceFile, destinationFile)`. -/
def uploadFile {σ : Type} (dbx : Client σ) (fs : FileSystem) (s : σ)
    (sourceFile destinationFile : String) : Outcome σ Unit :=
  match fs.Stat sourceFile with
  | .error e => ⟨(), some e, s, [.stat sourceFile (some e)]⟩
  | .ok info =>
    match fs.Open sourceFile with
    | .error e => ⟨(), some e, s, [.stat sourceFile none, .fileOpen sourceFile (some e)]⟩
    | .ok content =>
      let modTime := timeUnix info.ModTime.Unix
      let arg : CommitInfo := ⟨destinationFile, .overwrite, modTime⟩
      let r := dbx.Upload s arg content
      ⟨(), r.1, r.2,
        [.stat sourceFile none, .fileOpen sourceFile none, .upload arg content r.1,
          .fileClose sourceFile]⟩

/-! ## main -/

/-- The reasons for which `main` calls `log.Fatalf`. -/
inductive Fatal where
  | usage
  | sourcePath (sourcePath : String)
  | destPrefix (destPrefix : String)
  | remoteFileList (err : String)
  | localFileList (err : String)
  | upload (dest : String) (err : String)
deriving DecidableEq

/-- How a run ends. -/
inductive Exit where
  | success
  | fatal (reason : Fatal)
  | panic (msg : String)
deriving DecidableEq

/-- An invocation of `uploadFile` by `main`, with the error it returned. -/
structure Call where
  sourceFile : String
  destinationFile : String
  err : Option String
deriving DecidableEq

/-- A finished run: how it ended, the invocations of `uploadFile` in order, the
actions performed, and the client state left behind. -/
structure Run (σ : Type) where
  exit : Exit
  calls : List Call
  trace : List Event
  state : σ

/-- The options of `cfg` that influence the run (`Verbose` only adds log lines,
which are not modelled). -/
structure Config where
  ForceOverwrite : Bool
  Verbose : Bool
deriving DecidableEq

/-- The loop `for f, lmt := range localFilesPresent` of `main` (lines 68-81),
over the entries in the order the `range` yields them. -/
def uploadLoop {σ : Type} (cfg : Config) (dbx : Client σ) (fs : FileSystem)
    (sourcePath destPrefix : String) (remoteFilesPresent : Inventory) :
    List (String × Time) → σ → Run σ
  | [], s => ⟨.success, [], [], s⟩
  | (f, lmt) :: rest, s =>
    let dest := destOf destPrefix sourcePath f
    if skips remoteFilesPresent cfg.ForceOverwrite dest lmt then
      uploadLoop cfg dbx fs sourcePath destPrefix remoteFilesPresent rest s
    else
      let r := uploadFile dbx fs s f dest
      match r.err with
      | some e => ⟨.fatal (.upload dest e), [⟨f, dest, some e⟩], r.trace, r.state⟩
      | none =>
        let r2 := uploadLoop cfg dbx fs sourcePath destPrefix remoteFilesPresent rest r.state
        ⟨r2.exit, ⟨f, dest, none⟩ :: r2.calls, r.trace ++ r2.trace, r2.state⟩

/-- Go `main()`.  `args` is `rconfig.Args()`, `order` is the order in which
`range` yields the entries of the local file list, `fuel` bounds the number of
listing pages (`none`: the listing did not end within the bound). -/
def main {σ : Type} (cfg : Config) (args : List String) (fs : FileSystem) (dbx : Client σ)
    (order : Inventory → List (String × Time)) (fuel : Nat) (s0 : σ) : Option (Run σ) :=
  if args.length ≠ 3 then some ⟨.fatal .usage, [], [], s0⟩
  else
    let sourcePath := args.getD 1 ""
    let destPrefix := args.getD 2 ""
    let st := fs.Stat sourcePath
    let tr0 : List Event := [.stat sourcePath (match st with | .error e => some e | .ok _ => none)]
    let isDir := match st with | .error _ => false | .ok f => f.IsDir
    if !isDir then some ⟨.fatal (.sourcePath sourcePath), [], tr0, s0⟩
    else
      match destPrefix.data with
      | [] => some ⟨.panic "index out of range [0] with length 0", [], tr0, s0⟩
      | c :: _ =>
        if c ≠ '/' then some ⟨.fatal (.destPrefix destPrefix), [], tr0, s0⟩
        else
          match getRemoteFileList dbx fuel s0 destPrefix with
          | none => none
          | some remote =>
            match remote.err with
            | some e => some ⟨.fatal (.remoteFileList e), [], tr0 ++ remote.trace, remote.state⟩
            | none =>
              let tr1 := tr0 ++ remote.trace ++ [.walk sourcePath]
              match getLocalFileList fs sourcePath with
              | .panic m => some ⟨.panic m, [], tr1, remote.state⟩
              | .done (_, some e) => some ⟨.fatal (.localFileList e), [], tr1, remote.state⟩
              | .done (localFilesPresent, none) =>
                let r := uploadLoop cfg dbx fs sourcePath destPrefix remote.val
                  (order localFilesPresent) remote.state
                some ⟨r.exit, r.calls, tr1 ++ r.trace, r.state⟩

/-! ## Notions used to state the properties -/

/-- Whether the loop of `main` uploads a local entry. -/
def selected (cfg : Config) (sourcePath destPrefix : String) (remoteFilesPresent : Inventory)
    (entry : String × Time) : Bool :=
  !skips remoteFilesPresent cfg.ForceOverwrite (destOf destPrefix sourcePath entry.1) entry.2

/-- The invocations of `uploadFile` a run over `entries` makes when none fails:
one for each selected entry, in the order of the entries. -/
def planned (cfg : Config) (sourcePath destPrefix : String) (remoteFilesPresent : Inventory)
    (entries : List (String × Time)) : List (String × String) :=
  (entries.filter (selected cfg sourcePath destPrefix remoteFilesPresent)).map
    (fun entry => (entry.1, destOf destPrefix sourcePath entry.1))

/-- The source and destination of an invocation. -/
def Call.args (c : Call) : String × String := (c.sourceFile, c.destinationFile)

/-- The invocations `uploadFile(dbx, f, dest)` made one after the other for the
given pairs of source and destination, each from the client state the one
before left: the invocations with the errors they returned, the actions they
performed, and the client state after the last. -/
def runUploads {σ : Type} (dbx : Client σ) (fs : FileSystem) :
    List (String × String) → σ → List Call × List Event × σ
  | [], s => ([], [], s)
  | (f, dest) :: rest, s =>
    let r := uploadFile dbx fs s f dest
    let after := runUploads dbx fs rest r.state
    (⟨f, dest, r.err⟩ :: after.1, r.trace ++ after.2.1, after.2.2)

/-- The destination path of an `Upload` request, nothing for another action. -/
def Event.uploadPath : Event → Option String
  | .upload arg _ _ => some arg.Path
  | _ => none

/-- The destination paths of the `Upload` requests among the actions, in order. -/
def uploadPaths (trace : List Event) : List String := trace.filterMap Event.uploadPath

/-- The timestamp an entry contributes under the path `p`: the client-modified
time of a file entry displayed as `p`, nothing otherwise. -/
def fileTime (p : String) : Metadata → Option Time
  | .file q t => if q = p then some t else none
  | _ => none

/-- The client-modified time of the last file entry displayed as `p` in a
sequence of entries. -/
def lastClientModified (p : String) (entries : List Metadata) : Option Time :=
  (entries.filterMap (fileTime p)).getLast?

/-- The pages after `lfr` that the server hands out from state `s`: every page
but the last announces more, the last does not, and each page is the answer to
`ListFolderContinue` called with the cursor of the page before it. -/
def Pages {σ : Type} (dbx : Client σ) : σ → ListFolderResult → List ListFolderResult → Prop
  | _, lfr, [] => lfr.HasMore = false
  | s, lfr, next :: rest =>
    lfr.HasMore = true ∧ (dbx.ListFolderContinue s lfr.Cursor).1 = .ok next ∧
      Pages dbx (dbx.ListFolderContinue s lfr.Cursor).2 next rest

/-- The client state after the pages have been requested. -/
def stateAfter {σ : Type} (dbx : Client σ) : σ → ListFolderResult → List ListFolderResult → σ
  | s, _, [] => s
  | s, lfr, next :: rest => stateAfter dbx (dbx.ListFolderContinue s lfr.Cursor).2 next rest

/-- The continuation requests that fetch the pages after `lfr`. -/
def continueEvents : ListFolderResult → List ListFolderResult → List Event
  | _, [] => []
  | lfr, next :: rest => .listFolderContinue lfr.Cursor none :: continueEvents next rest

/-- The error an action returned. -/
def Event.err : Event → Option String
  | .stat _ e => e
  | .fileOpen _ e => e
  | .fileClose _ => none
  | .walk _ => none
  | .listFolder _ e => e
  | .listFolderContinue _ e => e
  | .upload _ _ e => e

/-- The server hands out the pages `rest` after `lfr`, every page announcing
more, and answers the continuation request for the last of them with `e`. -/
def FailsAfter {σ : Type} (dbx : Client σ) (e : String) :
    σ → ListFolderResult → List ListFolderResult → Prop
  | s, lfr, [] =>
    lfr.HasMore = true ∧ (dbx.ListFolderContinue s lfr.Cursor).1 = .error e
  | s, lfr, next :: rest =>
    lfr.HasMore = true ∧ (dbx.ListFolderContinue s lfr.Cursor).1 = .ok next ∧
      FailsAfter dbx e (dbx.ListFolderContinue s lfr.Cursor).2 next rest

/-! ## Concrete clients and file systems

Used to evaluate the program on explicit inputs. -/

/-- A simulated Dropbox whose state is the stored inventory: a listing of an
empty store reports that the path is not found, a listing of a non-empty store
returns every file on one page, an upload stores the client-modified time under
the destination path. -/
def memoryClient : Client Inventory where
  ListFolder st _ :=
    if st = [] then (.error "path/not_found/..", st)
    else (.ok ⟨st.map (fun kv => Metadata.file kv.1 kv.2), "cursor-1", false⟩, st)
  ListFolderContinue st _ := (.error "reset/..", st)
  Upload st arg _ := (none, st.set arg.Path arg.ClientModified)

/-- The range order used in concrete runs: the order of the list. -/
def listOrder : Inventory → List (String × Time) := fun m => m

/-- A modification time with a sub-second part: 1700000100.5 s. -/
def halfPast : Time := ⟨1700000100, 500000000, by decide⟩

/-- A directory `/data` holding the single file `a.txt`, modified at `halfPast`. -/
def dataFS : FileSystem where
  Stat p :=
    if p = "/data" then .ok ⟨true, timeUnix 1700000000⟩
    else if p = "/data/a.txt" then .ok ⟨false, halfPast⟩
    else .error "stat: no such file or directory"
  Open p :=
    if p = "/data/a.txt" then .ok "hello" else .error "open: no such file or directory"
  Tree _ := .dir "/data" (timeUnix 1700000000) none [.file "a.txt" halfPast]

/-- First page of a two-page listing: a file, a folder, and more to come. -/
def pageOne : ListFolderResult :=
  ⟨[.file "/backup/a.txt" (timeUnix 100), .folder "/backup/sub"], "cursor-1", true⟩

/-- Second and last page: a new file and the first file once more, newer. -/
def pageTwo : ListFolderResult :=
  ⟨[.file "/backup/sub/b.txt" (timeUnix 200), .file "/backup/a.txt" (timeUnix 300)],
    "cursor-2", false⟩

/-- A server that answers the listing with `pageOne` and the continuation from
`cursor-1` with `pageTwo`.  The state counts the requests. -/
def pagedClient : Client Nat where
  ListFolder n _ := (.ok pageOne, n + 1)
  ListFolderContinue n cursor :=
    if cursor = "cursor-1" then (.ok pageTwo, n + 1) else (.error "reset/..", n + 1)
  Upload n _ _ := (none, n + 1)

/-- A server that answers the listing with `pageOne` and then reports the path
as not found on the continuation request. -/
def vanishingClient : Client Nat where
  ListFolder n _ := (.ok pageOne, n + 1)
  ListFolderContinue n _ := (.error "path/not_found/..", n + 1)
  Upload n _ _ := (none, n + 1)

/-- A server that refuses every request. -/
def refusingClient : Client Nat where
  ListFolder n _ := (.error "too_many_requests/..", n + 1)
  ListFolderContinue n _ := (.error "too_many_requests/..", n + 1)
  Upload n _ _ := (some "too_many_write_operations/..", n + 1)

/-- A file system over a tree: `Stat` reports a directory for `root` and a file
with its modification time for the paths of `files`; every file can be opened;
a traversal meets `tree`. -/
def treeFS (root : String) (tree : Node) (files : Inventory) : FileSystem where
  Stat p :=
    if p = root then .ok ⟨true, timeUnix 1700000000⟩
    else
      match files.get p with
      | some t => .ok ⟨false, t⟩
      | none => .error "stat: no such file or directory"
  Open _ := .ok "content"
  Tree _ := tree

/-- The directory `.` holding `a.txt` and `sub/b.txt`. -/
def dotTree : Node :=
  .dir "." (timeUnix 1700000000) none
    [.file "a.txt" (timeUnix 1700000001),
      .dir "sub" (timeUnix 1700000000) none [.file "b.txt" (timeUnix 1700000002)]]

/-- The directory `src` holding `src/x.txt` and `x.txt`. -/
def nestedTree : Node :=
  .dir "src" (timeUnix 1700000000) none
    [.dir "src" (timeUnix 1700000000) none [.file "x.txt" (timeUnix 1700000001)],
      .file "x.txt" (timeUnix 1700000002)]

/-- The directory `src` holding `a.txt`, the unreadable directory `secret` (with
a file inside) and `z.txt`. -/
def lockedTree : Node :=
  .dir "src" (timeUnix 1700000000) none
    [.file "a.txt" (timeUnix 1700000001),
      .dir "secret" (timeUnix 1700000000) (some "open src/secret: permission denied")
        [.file "hidden.txt" (timeUnix 1700000003)],
      .file "z.txt" (timeUnix 1700000002)]

/-- The file system of the directory `.` with `dotTree`. -/
def dotFS : FileSystem :=
  treeFS "." dotTree [("a.txt", timeUnix 1700000001), ("sub/b.txt", timeUnix 1700000002)]

/-- The file system of the directory `src` with `nestedTree`. -/
def nestedFS : FileSystem :=
  treeFS "src" nestedTree
    [("src/src/x.txt", timeUnix 1700000001), ("src/x.txt", timeUnix 1700000002)]

/-- The file system of the directory `src` with `lockedTree`. -/
def lockedFS : FileSystem :=
  treeFS "src" lockedTree
    [("src/a.txt", timeUnix 1700000001), ("src/secret/hidden.txt", timeUnix 1700000003),
      ("src/z.txt", timeUnix 1700000002)]

/-- A walk function that records its arguments and, like the closure of
`getLocalFileList`, always returns nil. -/
def recordWalkFn : WalkFunc (List (String × Option FileInfo × Option String)) :=
  fun seen path f err => .done (seen ++ [(path, f, err)], none)

/-- The directory `src` holding `a.txt` and an entry whose `Lstat` fails. -/
def brokenTree : Node :=
  .dir "src" (timeUnix 1700000000) none
    [.file "a.txt" (timeUnix 1700000001),
      .broken "gone.txt" "lstat src/gone.txt: no such file or directory"]

/-- The file system of the directory `src` with `brokenTree`. -/
def brokenFS : FileSystem :=
  treeFS "src" brokenTree [("src/a.txt", timeUnix 1700000001)]

/-! # Properties

## Instants and the reconciler -/
/-- `Before` is the strict order of instants. -/
theorem Time.before_iff_nanos (t u : Time) : t.Before u = true ↔ t.nanos < u.nanos := by
  have ht := t.nsec_lt
  have hu := u.nsec_lt
  simp only [Time.Before, Time.nanos, Bool.or_eq_true, Bool.and_eq_true, decide_eq_true_eq]
  constructor
  · rintro (h | ⟨h1, h2⟩) <;> omega
  · intro h
    by_cases h1 : t.sec < u.sec
    · exact Or.inl h1
    · refine Or.inr ⟨?_, ?_⟩ <;> omega

/-- C1 (reconciler decision).  For a local entry `(f, lmt)`, any remote inventory
and any value of force-overwrite, the guard of the loop lets the file through
(`skips = false`) if and only if the destination is absent from the remote
inventory, or force-overwrite is set, or the remote time stored for the
destination is strictly before `lmt`.  When the file gets through, the loop at
this entry invokes `uploadFile` on it and its destination; in every other case
(present, flag unset, remote time equal or later) the loop does nothing for the
entry and goes on with the remaining ones. -/
theorem reconciler_decision {σ : Type} (cfg : Config) (dbx : Client σ) (fs : FileSystem)
    (sourcePath destPrefix : String) (remoteFilesPresent : Inventory)
    (f : String) (lmt : Time) (rest : List (String × Time)) (s : σ) :
    (skips remoteFilesPresent cfg.ForceOverwrite (destOf destPrefix sourcePath f) lmt = false ↔
      (remoteFilesPresent.get (destOf destPrefix sourcePath f) = none ∨
        cfg.ForceOverwrite = true ∨
        ∃ rmt, remoteFilesPresent.get (destOf destPrefix sourcePath f) = some rmt ∧
          rmt.nanos < lmt.nanos)) ∧
    (skips remoteFilesPresent cfg.ForceOverwrite (destOf destPrefix sourcePath f) lmt = false →
      ∃ e, (uploadLoop cfg dbx fs sourcePath destPrefix remoteFilesPresent
          ((f, lmt) :: rest) s).calls.head? =
        some ⟨f, destOf destPrefix sourcePath f, e⟩) ∧
    (skips remoteFilesPresent cfg.ForceOverwrite (destOf destPrefix sourcePath f) lmt = true →
      uploadLoop cfg dbx fs sourcePath destPrefix remoteFilesPresent ((f, lmt) :: rest) s =
        uploadLoop cfg dbx fs sourcePath destPrefix remoteFilesPresent rest s) := by
  refine ⟨?_, ?_, ?_⟩
  · unfold skips
    cases hg : remoteFilesPresent.get (destOf destPrefix sourcePath f) with
    | none => simp
    | some rmt =>
      have hb := Time.before_iff_nanos rmt lmt
      cases hf : cfg.ForceOverwrite <;> cases hB : rmt.Before lmt <;> simp_all
  · intro h
    simp only [uploadLoop, h]
    cases he : (uploadFile dbx fs s f (destOf destPrefix sourcePath f)).err with
    | none => exact ⟨none, by simp⟩
    | some e => exact ⟨some e, by simp⟩
  · intro h
    simp only [uploadLoop, h, if_true]

/-- The loop at an entry that is not selected: nothing happens for it. -/
theorem uploadLoop_cons_skip {σ : Type} (cfg : Config) (dbx : Client σ) (fs : FileSystem)
    (S D : String) (remote : Inventory) (f : String) (lmt : Time)
    (rest : List (String × Time)) (s : σ)
    (h : selected cfg S D remote (f, lmt) = false) :
    uploadLoop cfg dbx fs S D remote ((f, lmt) :: rest) s =
      uploadLoop cfg dbx fs S D remote rest s := by
  simp only [selected, Bool.not_eq_false_eq_eq_true] at h
  simp only [uploadLoop, h, if_true]

/-- The loop at a selected entry whose upload fails: the run ends there. -/
theorem uploadLoop_cons_fail {σ : Type} (cfg : Config) (dbx : Client σ) (fs : FileSystem)
    (S D : String) (remote : Inventory) (f : String) (lmt : Time)
    (rest : List (String × Time)) (s : σ) (e : String)
    (h : selected cfg S D remote (f, lmt) = true)
    (he : (uploadFile dbx fs s f (destOf D S f)).err = some e) :
    uploadLoop cfg dbx fs S D remote ((f, lmt) :: rest) s =
      ⟨.fatal (.upload (destOf D S f) e), [⟨f, destOf D S f, some e⟩],
        (uploadFile dbx fs s f (destOf D S f)).trace,
        (uploadFile dbx fs s f (destOf D S f)).state⟩ := by
  simp only [selected, Bool.not_eq_true_eq_eq_false] at h
  simp [uploadLoop, h, he]

/-- The loop at a selected entry whose upload succeeds: the run goes on from the
state the upload left. -/
theorem uploadLoop_cons_ok {σ : Type} (cfg : Config) (dbx : Client σ) (fs : FileSystem)
    (S D : String) (remote : Inventory) (f : String) (lmt : Time)
    (rest : List (String × Time)) (s : σ)
    (h : selected cfg S D remote (f, lmt) = true)
    (he : (uploadFile dbx fs s f (destOf D S f)).err = none) :
    uploadLoop cfg dbx fs S D remote ((f, lmt) :: rest) s =
      ⟨(uploadLoop cfg dbx fs S D remote rest (uploadFile dbx fs s f (destOf D S f)).state).exit,
        ⟨f, destOf D S f, none⟩ ::
          (uploadLoop cfg dbx fs S D remote rest (uploadFile dbx fs s f (destOf D S f)).state).calls,
        (uploadFile dbx fs s f (destOf D S f)).trace ++
          (uploadLoop cfg dbx fs S D remote rest (uploadFile dbx fs s f (destOf D S f)).state).trace,
        (uploadLoop cfg dbx fs S D remote rest
          (uploadFile dbx fs s f (destOf D S f)).state).state⟩ := by
  simp only [selected, Bool.not_eq_true_eq_eq_false] at h
  simp [uploadLoop, h, he]

/-- The invocations made are an initial segment of the planned ones. -/
theorem uploadLoop_calls_isPrefix {σ : Type} (cfg : Config) (dbx : Client σ) (fs : FileSystem)
    (S D : String) (remote : Inventory) (entries : List (String × Time)) (s : σ) :
    (uploadLoop cfg dbx fs S D remote entries s).calls.map Call.args <+:
      planned cfg S D remote entries := by
  induction entries generalizing s with
  | nil => simp [uploadLoop, planned]
  | cons en rest ih =>
    obtain ⟨f, lmt⟩ := en
    cases hsel : selected cfg S D remote (f, lmt) with
    | false =>
      rw [uploadLoop_cons_skip _ _ _ _ _ _ _ _ _ _ hsel]
      have : planned cfg S D remote ((f, lmt) :: rest) = planned cfg S D remote rest := by
        simp [planned, hsel]
      rw [this]
      exact ih s
    | true =>
      have hp : planned cfg S D remote ((f, lmt) :: rest) =
          (f, destOf D S f) :: planned cfg S D remote rest := by
        simp [planned, hsel]
      rw [hp]
      cases he : (uploadFile dbx fs s f (destOf D S f)).err with
      | some e =>
        rw [uploadLoop_cons_fail _ _ _ _ _ _ _ _ _ _ _ hsel he]
        simp [Call.args, List.prefix_cons_inj]
      | none =>
        rw [uploadLoop_cons_ok _ _ _ _ _ _ _ _ _ _ hsel he]
        simp only [List.map_cons, Call.args]
        exact (List.prefix_cons_inj _).2 (ih _)

/-- The sources of the planned invocations are among the local paths, in order. -/
theorem planned_fst_sublist (cfg : Config) (S D : String) (remote : Inventory)
    (entries : List (String × Time)) :
    ((planned cfg S D remote entries).map Prod.fst).Sublist (entries.map Prod.fst) := by
  have h : (planned cfg S D remote entries).map Prod.fst =
      (entries.filter (selected cfg S D remote)).map Prod.fst := by
    simp [planned, List.map_map, Function.comp_def]
  rw [h]
  exact List.Sublist.map _ (List.filter_sublist _)

/-- A failing invocation is the last one and decides the exit; when no invocation
fails the run succeeds after making every planned invocation. -/
theorem uploadLoop_outcome {σ : Type} (cfg : Config) (dbx : Client σ) (fs : FileSystem)
    (S D : String) (remote : Inventory) (entries : List (String × Time)) (s : σ) :
    (∀ pre c post e, (uploadLoop cfg dbx fs S D remote entries s).calls = pre ++ c :: post →
        c.err = some e →
        post = [] ∧ (uploadLoop cfg dbx fs S D remote entries s).exit =
          .fatal (.upload c.destinationFile e)) ∧
    ((∀ c ∈ (uploadLoop cfg dbx fs S D remote entries s).calls, c.err = none) →
      (uploadLoop cfg dbx fs S D remote entries s).exit = .success ∧
        (uploadLoop cfg dbx fs S D remote entries s).calls.map Call.args =
          planned cfg S D remote entries) := by
  induction entries generalizing s with
  | nil =>
    refine ⟨?_, ?_⟩
    · intro pre c post e h
      simp [uploadLoop] at h
    · intro _
      simp [uploadLoop, planned]
  | cons en rest ih =>
    obtain ⟨f, lmt⟩ := en
    cases hsel : selected cfg S D remote (f, lmt) with
    | false =>
      rw [uploadLoop_cons_skip _ _ _ _ _ _ _ _ _ _ hsel]
      have : planned cfg S D remote ((f, lmt) :: rest) = planned cfg S D remote rest := by
        simp [planned, hsel]
      rw [this]
      exact ih s
    | true =>
      have hp : planned cfg S D remote ((f, lmt) :: rest) =
          (f, destOf D S f) :: planned cfg S D remote rest := by
        simp [planned, hsel]
      rw [hp]
      cases he : (uploadFile dbx fs s f (destOf D S f)).err with
      | some e0 =>
        rw [uploadLoop_cons_fail _ _ _ _ _ _ _ _ _ _ _ hsel he]
        refine ⟨?_, ?_⟩
        · intro pre c post e h hc
          cases pre with
          | nil =>
            simp only [List.nil_append, List.cons.injEq] at h
            obtain ⟨h1, h2⟩ := h
            subst h1
            simp only at hc
            cases hc
            exact ⟨h2.symm, rfl⟩
          | cons x pre1 =>
            simp at h
        · intro hall
          have := hall ⟨f, destOf D S f, some e0⟩ (by simp)
          simp at this
      | none =>
        rw [uploadLoop_cons_ok _ _ _ _ _ _ _ _ _ _ hsel he]
        obtain ⟨ih1, ih2⟩ := ih (uploadFile dbx fs s f (destOf D S f)).state
        refine ⟨?_, ?_⟩
        · intro pre c post e h hc
          cases pre with
          | nil =>
            simp only [List.nil_append, List.cons.injEq] at h
            obtain ⟨h1, _⟩ := h
            subst h1
            simp at hc
          | cons x pre1 =>
            simp only [List.cons_append, List.cons.injEq] at h
            exact ih1 pre1 c post e h.2 hc
        · intro hall
          have h2 := ih2 (fun c hc => hall c (List.mem_cons_of_mem _ hc))
          exact ⟨h2.1, by simp [Call.args, ← h2.2]⟩

/-- An invocation of `uploadFile` issues at most one `Upload` request, for its
destination. -/
theorem uploadFile_uploadPaths_isPrefix {σ : Type} (dbx : Client σ) (fs : FileSystem) (s : σ)
    (f dest : String) : uploadPaths (uploadFile dbx fs s f dest).trace <+: [dest] := by
  unfold uploadFile
  cases fs.Stat f with
  | error e => simp [uploadPaths, Event.uploadPath]
  | ok info =>
    cases fs.Open f with
    | error e => simp [uploadPaths, Event.uploadPath]
    | ok content => simp [uploadPaths, Event.uploadPath]

/-- An invocation of `uploadFile` that returns nil has issued exactly one `Upload`
request, for its destination. -/
theorem uploadFile_uploadPaths_of_ok {σ : Type} (dbx : Client σ) (fs : FileSystem) (s : σ)
    (f dest : String) (h : (uploadFile dbx fs s f dest).err = none) :
    uploadPaths (uploadFile dbx fs s f dest).trace = [dest] := by
  unfold uploadFile at h ⊢
  cases hs : fs.Stat f with
  | error e => simp [hs] at h
  | ok info =>
    cases ho : fs.Open f with
    | error e => simp [hs, ho] at h
    | ok content => simp [uploadPaths, Event.uploadPath]

theorem uploadPaths_append (a b : List Event) :
    uploadPaths (a ++ b) = uploadPaths a ++ uploadPaths b := by
  simp [uploadPaths, List.filterMap_append]

/-- The recorded invocations, the actions and the final client state of the loop
are those of invoking `uploadFile` once for each recorded invocation, in order,
each from the state the one before left. -/
theorem uploadLoop_runUploads {σ : Type} (cfg : Config) (dbx : Client σ) (fs : FileSystem)
    (S D : String) (remote : Inventory) (entries : List (String × Time)) (s : σ) :
    runUploads dbx fs ((uploadLoop cfg dbx fs S D remote entries s).calls.map Call.args) s =
      ((uploadLoop cfg dbx fs S D remote entries s).calls,
        (uploadLoop cfg dbx fs S D remote entries s).trace,
        (uploadLoop cfg dbx fs S D remote entries s).state) := by
  induction entries generalizing s with
  | nil => simp [uploadLoop, runUploads]
  | cons en rest ih =>
    obtain ⟨f, lmt⟩ := en
    cases hsel : selected cfg S D remote (f, lmt) with
    | false =>
      rw [uploadLoop_cons_skip _ _ _ _ _ _ _ _ _ _ hsel]
      exact ih s
    | true =>
      cases he : (uploadFile dbx fs s f (destOf D S f)).err with
      | some e =>
        rw [uploadLoop_cons_fail _ _ _ _ _ _ _ _ _ _ _ hsel he]
        simp [runUploads, Call.args, he]
      | none =>
        rw [uploadLoop_cons_ok _ _ _ _ _ _ _ _ _ _ hsel he]
        have h2 := ih (uploadFile dbx fs s f (destOf D S f)).state
        simp only [List.map_cons, Call.args, runUploads]
        simp only [Call.args] at h2
        rw [h2, he]

/-- The `Upload` requests of the loop go to the destinations of the recorded
invocations, in order, at most one for each; when no invocation fails there is
exactly one for each. -/
theorem uploadLoop_uploadPaths {σ : Type} (cfg : Config) (dbx : Client σ) (fs : FileSystem)
    (S D : String) (remote : Inventory) (entries : List (String × Time)) (s : σ) :
    (uploadPaths (uploadLoop cfg dbx fs S D remote entries s).trace <+:
        (uploadLoop cfg dbx fs S D remote entries s).calls.map Call.destinationFile) ∧
    ((∀ c ∈ (uploadLoop cfg dbx fs S D remote entries s).calls, c.err = none) →
      uploadPaths (uploadLoop cfg dbx fs S D remote entries s).trace =
        (uploadLoop cfg dbx fs S D remote entries s).calls.map Call.destinationFile) := by
  induction entries generalizing s with
  | nil => simp [uploadLoop, uploadPaths]
  | cons en rest ih =>
    obtain ⟨f, lmt⟩ := en
    cases hsel : selected cfg S D remote (f, lmt) with
    | false =>
      rw [uploadLoop_cons_skip _ _ _ _ _ _ _ _ _ _ hsel]
      exact ih s
    | true =>
      cases he : (uploadFile dbx fs s f (destOf D S f)).err with
      | some e =>
        rw [uploadLoop_cons_fail _ _ _ _ _ _ _ _ _ _ _ hsel he]
        refine ⟨?_, ?_⟩
        · simpa using uploadFile_uploadPaths_isPrefix dbx fs s f (destOf D S f)
        · intro hall
          have := hall ⟨f, destOf D S f, some e⟩ (by simp)
          simp at this
      | none =>
        rw [uploadLoop_cons_ok _ _ _ _ _ _ _ _ _ _ hsel he]
        obtain ⟨ih1, ih2⟩ := ih (uploadFile dbx fs s f (destOf D S f)).state
        have hp := uploadFile_uploadPaths_of_ok dbx fs s f (destOf D S f) he
        refine ⟨?_, ?_⟩
        · simp only [uploadPaths_append, hp, List.map_cons, List.singleton_append]
          exact (List.prefix_cons_inj _).2 ih1
        · intro hall
          have h2 := ih2 (fun c hc => hall c (List.mem_cons_of_mem _ hc))
          simp only [uploadPaths_append, hp, List.map_cons, List.singleton_append, h2]

/-- C7 (upload loop).  For local entries with distinct paths, processed in any
order (the order of `entries`): the invocations of `uploadFile` are an initial
segment of the planned ones, i.e. of the selected entries in processing order,
each with its destination, so only selected files are uploaded; no local file is
passed twice; when no invocation fails the run succeeds and every planned
invocation was made; an invocation that fails is the last one and the run ends
with the fatal upload error for its destination.  The invocations are real: the
errors recorded, the actions of the run and the client state it leaves are
exactly those of invoking `uploadFile` once for each recorded invocation, in
order, each from the state the one before left (so nothing is uploaded for a
file passed over or after a failure); the `Upload` requests in the actions go
to the destinations of the invocations, in order and at most one for each, and
when no invocation fails there is exactly one for each selected file. -/
theorem upload_loop_contract {σ : Type} (cfg : Config) (dbx : Client σ) (fs : FileSystem)
    (sourcePath destPrefix : String) (remoteFilesPresent : Inventory)
    (entries : List (String × Time)) (s : σ)
    (hkeys : (entries.map Prod.fst).Nodup) :
    ((uploadLoop cfg dbx fs sourcePath destPrefix remoteFilesPresent entries s).calls.map
        Call.args <+: planned cfg sourcePath destPrefix remoteFilesPresent entries) ∧
    (∀ c ∈ (uploadLoop cfg dbx fs sourcePath destPrefix remoteFilesPresent entries s).calls,
      ∃ entry ∈ entries, selected cfg sourcePath destPrefix remoteFilesPresent entry = true ∧
        c.sourceFile = entry.1 ∧ c.destinationFile = destOf destPrefix sourcePath entry.1) ∧
    ((uploadLoop cfg dbx fs sourcePath destPrefix remoteFilesPresent entries s).calls.map
        Call.sourceFile).Nodup ∧
    ((∀ c ∈ (uploadLoop cfg dbx fs sourcePath destPrefix remoteFilesPresent entries s).calls,
        c.err = none) →
      (uploadLoop cfg dbx fs sourcePath destPrefix remoteFilesPresent entries s).exit = .success ∧
        (uploadLoop cfg dbx fs sourcePath destPrefix remoteFilesPresent entries s).calls.map
          Call.args = planned cfg sourcePath destPrefix remoteFilesPresent entries) ∧
    (∀ pre c post e,
      (uploadLoop cfg dbx fs sourcePath destPrefix remoteFilesPresent entries s).calls =
          pre ++ c :: post →
        c.err = some e →
        post = [] ∧
          (uploadLoop cfg dbx fs sourcePath destPrefix remoteFilesPresent entries s).exit =
            .fatal (.upload c.destinationFile e)) ∧
    (runUploads dbx fs
        ((uploadLoop cfg dbx fs sourcePath destPrefix remoteFilesPresent entries s).calls.map
          Call.args) s =
      ((uploadLoop cfg dbx fs sourcePath destPrefix remoteFilesPresent entries s).calls,
        (uploadLoop cfg dbx fs sourcePath destPrefix remoteFilesPresent entries s).trace,
        (uploadLoop cfg dbx fs sourcePath destPrefix remoteFilesPresent entries s).state)) ∧
    (uploadPaths (uploadLoop cfg dbx fs sourcePath destPrefix remoteFilesPresent entries s).trace
        <+: (uploadLoop cfg dbx fs sourcePath destPrefix remoteFilesPresent entries s).calls.map
          Call.destinationFile) ∧
    ((∀ c ∈ (uploadLoop cfg dbx fs sourcePath destPrefix remoteFilesPresent entries s).calls,
        c.err = none) →
      uploadPaths
          (uploadLoop cfg dbx fs sourcePath destPrefix remoteFilesPresent entries s).trace =
        (planned cfg sourcePath destPrefix remoteFilesPresent entries).map Prod.snd) := by
  have hpre := uploadLoop_calls_isPrefix cfg dbx fs sourcePath destPrefix remoteFilesPresent
    entries s
  have hout := uploadLoop_outcome cfg dbx fs sourcePath destPrefix remoteFilesPresent entries s
  have hrun := uploadLoop_runUploads cfg dbx fs sourcePath destPrefix remoteFilesPresent
    entries s
  have hup := uploadLoop_uploadPaths cfg dbx fs sourcePath destPrefix remoteFilesPresent
    entries s
  refine ⟨hpre, ?_, ?_, hout.2, hout.1, hrun, hup.1, ?_⟩
  · intro c hc
    have hm : c.args ∈ planned cfg sourcePath destPrefix remoteFilesPresent entries :=
      hpre.subset (List.mem_map_of_mem Call.args hc)
    simp only [planned, List.mem_map, List.mem_filter] at hm
    obtain ⟨entry, ⟨h1, h2⟩, h3⟩ := hm
    simp only [Call.args, Prod.mk.injEq] at h3
    exact ⟨entry, h1, h2, h3.1.symm, h3.2.symm⟩
  · have h1 : ((uploadLoop cfg dbx fs sourcePath destPrefix remoteFilesPresent entries
        s).calls.map Call.sourceFile) = ((uploadLoop cfg dbx fs sourcePath destPrefix
          remoteFilesPresent entries s).calls.map Call.args).map Prod.fst := by
      simp [List.map_map, Function.comp_def, Call.args]
    rw [h1]
    have h2 := (List.IsPrefix.map Prod.fst hpre).sublist
    exact (h2.trans (planned_fst_sublist _ _ _ _ _)).nodup hkeys
  · intro hall
    rw [hup.2 hall, ← (hout.2 hall).2]
    simp [List.map_map, Function.comp_def, Call.args]

/-! ## path.Clean: the bound on the iterations is never reached -/
/-- Copying a path element that starts with a character other than `/` consumes
at least that character. -/
theorem length_dropWhile_cons_le (c : Char) (rest : List Char) (hc : c ≠ '/') :
    ((c :: rest).dropWhile (fun x => decide (x ≠ '/'))).length ≤ rest.length := by
  have h : (c :: rest).dropWhile (fun x => decide (x ≠ '/')) =
      rest.dropWhile (fun x => decide (x ≠ '/')) := by
    simp [List.dropWhile_cons, hc]
  rw [h]
  exact (List.dropWhile_sublist _).length_le

/-- One more iteration than the number of characters left changes nothing. -/
theorem cleanLoop_succ (rooted : Bool) :
    ∀ (fuel : Nat) (rest out : List Char) (dotdot : Nat), rest.length ≤ fuel →
      cleanLoop rooted (fuel + 1) rest out dotdot = cleanLoop rooted fuel rest out dotdot := by
  intro fuel
  induction fuel with
  | zero =>
    intro rest out dotdot h
    have : rest = [] := List.length_eq_zero.1 (Nat.le_zero.1 h)
    subst this
    simp [cleanLoop]
  | succ n ih =>
    intro rest out dotdot h
    cases rest with
    | nil => simp [cleanLoop]
    | cons c rest =>
      have hr : rest.length ≤ n := by simpa using h
      have ht : rest.tail.length ≤ n := by
        rw [List.length_tail]; omega
      rw [cleanLoop, cleanLoop]
      by_cases h1 : c = '/'
      · simp only [h1, if_true]
        exact ih _ _ _ hr
      · have hd := (length_dropWhile_cons_le c rest h1).trans hr
        simp only [h1, if_false]
        split_ifs <;> first | exact ih _ _ _ hr | exact ih _ _ _ ht | exact ih _ _ _ hd

/-- Any bound that is at least the number of characters left gives the result of
the loop run to the end of the path. -/
theorem cleanLoop_of_le (rooted : Bool) (rest out : List Char) (dotdot : Nat) :
    ∀ (k : Nat), cleanLoop rooted (rest.length + k) rest out dotdot =
      cleanLoop rooted rest.length rest out dotdot := by
  intro k
  induction k with
  | zero => rfl
  | succ k ih =>
    rw [← Nat.add_assoc, cleanLoop_succ rooted _ rest out dotdot (Nat.le_add_right _ _), ih]

/-! ## The remote inventory -/
/-- Lookup after assignment. -/
theorem Inventory.get_set (m : Inventory) (k : String) (v : Time) (p : String) :
    (m.set k v).get p = if k = p then some v else m.get p := by
  induction m with
  | nil => simp [Inventory.set, Inventory.get]
  | cons hd tl ih =>
    obtain ⟨k1, v1⟩ := hd
    by_cases h1 : k1 = k
    · subst h1
      by_cases h2 : k1 = p <;> simp [Inventory.set, Inventory.get, h2]
    · by_cases h2 : k1 = p
      · subst h2
        have h3 : ¬ k = k1 := fun h => h1 h.symm
        simp [Inventory.set, Inventory.get, h1, h3]
      · simp [Inventory.set, Inventory.get, h1, h2, ih]

/-- Lookup after one entry of a page has been collected. -/
theorem collectEntry_get (inv : Inventory) (e : Metadata) (p : String) :
    (collectEntry inv e).get p = (fileTime p e).orElse (fun _ => inv.get p) := by
  cases e with
  | file q t =>
    by_cases h : q = p <;> simp [collectEntry, fileTime, Inventory.get_set, h]
  | folder q => simp [collectEntry, fileTime]
  | deleted q => simp [collectEntry, fileTime]

/-- Lookup after a sequence of entries has been collected: the last file entry
displayed as `p` decides, else the inventory before. -/
theorem foldl_collectEntry_get (entries : List Metadata) (inv : Inventory) (p : String) :
    (entries.foldl collectEntry inv).get p =
      (lastClientModified p entries).orElse (fun _ => inv.get p) := by
  induction entries using List.reverseRecOn with
  | nil => simp [lastClientModified]
  | append_singleton es e ih =>
    rw [List.foldl_append, List.foldl_cons, List.foldl_nil, collectEntry_get, ih]
    cases h : fileTime p e with
    | none => simp [lastClientModified, List.filterMap_append, h]
    | some t => simp [lastClientModified, List.filterMap_append, h]

/-- The loop over a finite chain of pages returns the inventory collected from all
of them, with a nil error, after one continuation request a page. -/
theorem listLoop_pages {σ : Type} (dbx : Client σ) (rest : List ListFolderResult) :
    ∀ (fuel : Nat) (lfr : ListFolderResult) (inv : Inventory) (s : σ) (tr : List Event),
      Pages dbx s lfr rest → rest.length < fuel →
      listLoop dbx fuel lfr inv s tr =
        some ⟨((lfr :: rest).flatMap ListFolderResult.Entries).foldl collectEntry inv, none,
          stateAfter dbx s lfr rest, tr ++ continueEvents lfr rest⟩ := by
  induction rest with
  | nil =>
    intro fuel lfr inv s tr hp hf
    cases fuel with
    | zero => simp at hf
    | succ n =>
      simp only [Pages] at hp
      simp [listLoop, hp, stateAfter, continueEvents]
  | cons next rest ih =>
    intro fuel lfr inv s tr hp hf
    cases fuel with
    | zero => simp at hf
    | succ n =>
      obtain ⟨h1, h2, h3⟩ := hp
      have hf2 : rest.length < n := by simpa using hf
      have hc : dbx.ListFolderContinue s lfr.Cursor =
          (.ok next, (dbx.ListFolderContinue s lfr.Cursor).2) := by
        rw [← h2]
      simp only [listLoop, h1]
      rw [hc]
      simp only [Bool.not_true, Bool.false_eq_true, if_false]
      rw [ih n next _ _ _ h3 hf2]
      simp [stateAfter, continueEvents, List.foldl_append]

/-- Only a file entry displayed as `p` contributes a time under `p`. -/
theorem fileTime_eq_some (p : String) (e : Metadata) (t : Time) :
    fileTime p e = some t ↔ e = .file p t := by
  cases e with
  | file q u =>
    by_cases h : q = p
    · subst h
      simp [fileTime]
    · simp [fileTime, h]
  | folder q => simp [fileTime]
  | deleted q => simp [fileTime]

/-- Some entry contributes under `p` exactly when a file entry is displayed as `p`. -/
theorem lastClientModified_isSome (p : String) (entries : List Metadata) :
    (lastClientModified p entries).isSome ↔ ∃ t, Metadata.file p t ∈ entries := by
  unfold lastClientModified
  constructor
  · intro h
    obtain ⟨t, ht⟩ := Option.isSome_iff_exists.1 h
    have hm := List.mem_of_getLast?_eq_some ht
    obtain ⟨e, he, hte⟩ := List.mem_filterMap.1 hm
    exact ⟨t, by rwa [(fileTime_eq_some p e t).1 hte] at he⟩
  · rintro ⟨t, ht⟩
    have hm : t ∈ entries.filterMap (fileTime p) :=
      List.mem_filterMap.2 ⟨_, ht, (fileTime_eq_some p _ t).2 rfl⟩
    cases hl : (entries.filterMap (fileTime p)).getLast? with
    | some u => rfl
    | none =>
      rw [List.getLast?_eq_none_iff] at hl
      rw [hl] at hm
      simp at hm

/-- The keys after an assignment: unchanged for a present key, one more otherwise. -/
theorem Inventory.keys_set (m : Inventory) (k : String) (v : Time) :
    (m.set k v).map Prod.fst = if k ∈ m.map Prod.fst then m.map Prod.fst
      else m.map Prod.fst ++ [k] := by
  induction m with
  | nil => simp [Inventory.set]
  | cons hd tl ih =>
    obtain ⟨k1, v1⟩ := hd
    by_cases h1 : k1 = k
    · subst h1
      simp [Inventory.set]
    · have h3 : ¬ k = k1 := fun h => h1 h.symm
      by_cases h2 : k ∈ tl.map Prod.fst
      · rw [if_pos h2] at ih
        have h4 : ∃ x, (k, x) ∈ tl := by simpa using h2
        simp [Inventory.set, h1, h3, ih, h4]
      · rw [if_neg h2] at ih
        have h4 : ¬ ∃ x, (k, x) ∈ tl := by simpa using h2
        simp only [not_exists] at h4
        simp [Inventory.set, h1, h3, ih, h4]

/-- Assignment keeps the keys distinct. -/
theorem Inventory.nodup_set (m : Inventory) (k : String) (v : Time)
    (h : (m.map Prod.fst).Nodup) : ((m.set k v).map Prod.fst).Nodup := by
  rw [Inventory.keys_set]
  split
  · exact h
  · rename_i hk
    exact List.Nodup.append h (List.nodup_singleton k) (by simpa using hk)

/-- Collecting entries keeps the keys distinct. -/
theorem nodup_foldl_collectEntry (entries : List Metadata) (inv : Inventory)
    (h : (inv.map Prod.fst).Nodup) :
    ((entries.foldl collectEntry inv).map Prod.fst).Nodup := by
  induction entries generalizing inv with
  | nil => simpa using h
  | cons e es ih =>
    rw [List.foldl_cons]
    apply ih
    cases e with
    | file q t => exact Inventory.nodup_set inv q t h
    | folder q => exact h
    | deleted q => exact h

/-- C8 (accumulation of the listing).  When `ListFolder` answers with `first` and
the server then hands out the pages `rest` (every page but the last announces
more, the last does not, each is the answer to the continuation request made
with the cursor of the page before), `getRemoteFileList` returns with a nil
error once the bound exceeds the number of continuation pages; it requested the
listing and then one continuation a page, each with the previous cursor; the
inventory has a key `p` exactly when some page holds a file entry displayed as
`p` (folder and deleted entries give no key); the value at `p` is the
client-modified time of the last such entry in page order; keys are unique. -/
theorem remote_accumulation {σ : Type} (dbx : Client σ) (s : σ) (pfx : String)
    (first : ListFolderResult) (rest : List ListFolderResult) (fuel : Nat)
    (hfirst : (dbx.ListFolder s ⟨pfx, true⟩).1 = .ok first)
    (hpages : Pages dbx (dbx.ListFolder s ⟨pfx, true⟩).2 first rest)
    (hfuel : rest.length < fuel) :
    ∃ r, getRemoteFileList dbx fuel s pfx = some r ∧ r.err = none ∧
      r.trace = .listFolder ⟨pfx, true⟩ none :: continueEvents first rest ∧
      (∀ p, (r.val.get p).isSome ↔
        ∃ t, Metadata.file p t ∈ (first :: rest).flatMap ListFolderResult.Entries) ∧
      (∀ p, r.val.get p =
        lastClientModified p ((first :: rest).flatMap ListFolderResult.Entries)) ∧
      (r.val.map Prod.fst).Nodup := by
  have hc : dbx.ListFolder s ⟨pfx, true⟩ = (.ok first, (dbx.ListFolder s ⟨pfx, true⟩).2) := by
    rw [← hfirst]
  have hget : ∀ p, (((first :: rest).flatMap ListFolderResult.Entries).foldl collectEntry
      []).get p = lastClientModified p ((first :: rest).flatMap ListFolderResult.Entries) := by
    intro p
    rw [foldl_collectEntry_get]
    cases lastClientModified p ((first :: rest).flatMap ListFolderResult.Entries) <;>
      simp [Inventory.get]
  refine ⟨⟨((first :: rest).flatMap ListFolderResult.Entries).foldl collectEntry [], none,
    stateAfter dbx (dbx.ListFolder s ⟨pfx, true⟩).2 first rest,
    [.listFolder ⟨pfx, true⟩ none] ++ continueEvents first rest⟩, ?_, rfl, ?_, ?_, hget, ?_⟩
  · unfold getRemoteFileList
    simp only
    rw [hc]
    simp only
    exact listLoop_pages dbx rest fuel first [] _ _ hpages hfuel
  · simp
  · intro p
    rw [hget, lastClientModified_isSome]
  · exact nodup_foldl_collectEntry _ [] (by simp)

/-! ## Errors of the remote listing -/
/-- The loop over a chain of pages whose last continuation request fails returns
that error together with what was collected so far. -/
theorem listLoop_failsAfter {σ : Type} (dbx : Client σ) (e : String)
    (rest : List ListFolderResult) :
    ∀ (fuel : Nat) (lfr : ListFolderResult) (inv : Inventory) (s : σ) (tr : List Event),
      FailsAfter dbx e s lfr rest → rest.length < fuel →
      ∃ r, listLoop dbx fuel lfr inv s tr = some r ∧ r.err = some e ∧
        r.val = ((lfr :: rest).flatMap ListFolderResult.Entries).foldl collectEntry inv := by
  induction rest with
  | nil =>
    intro fuel lfr inv s tr hp hf
    cases fuel with
    | zero => simp at hf
    | succ n =>
      obtain ⟨h1, h2⟩ := hp
      have hc : dbx.ListFolderContinue s lfr.Cursor =
          (.error e, (dbx.ListFolderContinue s lfr.Cursor).2) := by
        rw [← h2]
      simp only [listLoop, h1]
      rw [hc]
      simp
  | cons next rest ih =>
    intro fuel lfr inv s tr hp hf
    cases fuel with
    | zero => simp at hf
    | succ n =>
      obtain ⟨h1, h2, h3⟩ := hp
      have hf2 : rest.length < n := by simpa using hf
      have hc : dbx.ListFolderContinue s lfr.Cursor =
          (.ok next, (dbx.ListFolderContinue s lfr.Cursor).2) := by
        rw [← h2]
      simp only [listLoop, h1]
      rw [hc]
      simp only [Bool.not_true, Bool.false_eq_true, if_false]
      obtain ⟨r, hr1, hr2, hr3⟩ := ih n next (lfr.Entries.foldl collectEntry inv) _
        (tr ++ [.listFolderContinue lfr.Cursor none]) h3 hf2
      exact ⟨r, hr1, hr2, by simp [hr3, List.foldl_append]⟩

/-- Every result of the loop reports the error of a failed continuation request,
and a result without error performed no failing request. -/
theorem listLoop_trace {σ : Type} (dbx : Client σ) :
    ∀ (fuel : Nat) (lfr : ListFolderResult) (inv : Inventory) (s : σ) (tr : List Event)
      (r : Outcome σ Inventory),
      listLoop dbx fuel lfr inv s tr = some r → (∀ ev ∈ tr, ev.err = none) →
      (∀ ev ∈ r.trace, ∀ e, ev.err = some e → r.err = some e) := by
  intro fuel
  induction fuel with
  | zero =>
    intro lfr inv s tr r h
    simp [listLoop] at h
  | succ n ih =>
    intro lfr inv s tr r h htr
    simp only [listLoop] at h
    cases hm : lfr.HasMore with
    | false =>
      simp only [hm, Bool.not_false, if_true, Option.some.injEq] at h
      subst h
      intro ev hev e he
      rw [htr ev hev] at he
      cases he
    | true =>
      simp only [hm, Bool.not_true, Bool.false_eq_true, if_false] at h
      rcases hc : dbx.ListFolderContinue s lfr.Cursor with ⟨resp, s1⟩
      rw [hc] at h
      cases resp with
      | error e0 =>
        simp only [Option.some.injEq] at h
        subst h
        intro ev hev e he
        simp only [List.mem_append, List.mem_singleton] at hev
        rcases hev with hev | hev
        · rw [htr ev hev] at he
          cases he
        · subst hev
          simpa [Event.err] using he
      | ok lfr1 =>
        simp only at h
        refine ih lfr1 _ s1 _ r h ?_
        intro ev hev
        simp only [List.mem_append, List.mem_singleton] at hev
        rcases hev with hev | hev
        · exact htr ev hev
        · subst hev
          rfl

/-- C4 (errors of the listing).  When the listing request `ListFolder` fails with
a message containing `path/not_found/`, `getRemoteFileList` returns the empty
inventory and a nil error.  Every other listing error is returned: an error of
`ListFolder` without that text, and the error of a `ListFolderContinue` page
request whatever its text, once the bound exceeds the number of pages handed out
before.  So a returned result swallows a failed request (nil error although a
request failed) if and only if the listing request failed as not found. -/
theorem remote_listing_errors {σ : Type} (dbx : Client σ) (fuel : Nat) (s : σ) (pfx : String) :
    (∀ e, (dbx.ListFolder s ⟨pfx, true⟩).1 = .error e →
      stringsContains e "path/not_found/" = true →
      getRemoteFileList dbx fuel s pfx =
        some ⟨[], none, (dbx.ListFolder s ⟨pfx, true⟩).2, [.listFolder ⟨pfx, true⟩ (some e)]⟩) ∧
    (∀ e, (dbx.ListFolder s ⟨pfx, true⟩).1 = .error e →
      stringsContains e "path/not_found/" = false →
      getRemoteFileList dbx fuel s pfx =
        some ⟨[], some e, (dbx.ListFolder s ⟨pfx, true⟩).2,
          [.listFolder ⟨pfx, true⟩ (some e)]⟩) ∧
    (∀ first rest e, (dbx.ListFolder s ⟨pfx, true⟩).1 = .ok first →
      FailsAfter dbx e (dbx.ListFolder s ⟨pfx, true⟩).2 first rest → rest.length < fuel →
      ∃ r, getRemoteFileList dbx fuel s pfx = some r ∧ r.err = some e) ∧
    (∀ r, getRemoteFileList dbx fuel s pfx = some r →
      ((r.err = none ∧ ∃ ev ∈ r.trace, ev.err ≠ none) ↔
        ∃ e, (dbx.ListFolder s ⟨pfx, true⟩).1 = .error e ∧
          stringsContains e "path/not_found/" = true)) := by
  rcases hc : dbx.ListFolder s ⟨pfx, true⟩ with ⟨resp, s1⟩
  refine ⟨?_, ?_, ?_, ?_⟩
  · intro e he hnf
    simp only at he
    subst he
    simp [getRemoteFileList, hc, hnf]
  · intro e he hnf
    simp only at he
    subst he
    simp [getRemoteFileList, hc, hnf]
  · intro first rest e he hp hf
    simp only at he hp
    subst he
    obtain ⟨r, hr1, hr2, _⟩ := listLoop_failsAfter dbx e rest fuel first [] s1
      [.listFolder ⟨pfx, true⟩ none] hp hf
    exact ⟨r, by simpa [getRemoteFileList, hc] using hr1, hr2⟩
  · intro r hr
    cases resp with
    | error e0 =>
      cases hnf : stringsContains e0 "path/not_found/" with
      | true =>
        simp only [getRemoteFileList, hc, hnf, if_true, Option.some.injEq] at hr
        subst hr
        simp [Event.err, hnf]
      | false =>
        simp only [getRemoteFileList, hc, hnf, Bool.false_eq_true, if_false,
          Option.some.injEq] at hr
        subst hr
        simp [hnf]
    | ok lfr =>
      simp only [getRemoteFileList, hc] at hr
      have ht := listLoop_trace dbx fuel lfr [] s1 _ r hr (by simp [Event.err])
      constructor
      · rintro ⟨h1, ev, hev, h2⟩
        obtain ⟨e, he⟩ := Option.ne_none_iff_exists'.1 h2
        have := ht ev hev e he
        rw [h1] at this
        cases this
      · rintro ⟨e, he, _⟩
        simp at he

/-! ## The local walk -/

mutual
/-- A visit with the closure of `getLocalFileList` that returns, returns nil. -/
theorem walk_localWalkFn_nil :
    ∀ (n : Node) (acc : Inventory) (path : String) (r : Inventory × Option WalkErr),
      walk localWalkFn acc path n = .done r → r.2 = none
  | .broken _ _, acc, path, r, h => by
    simp [walk, localWalkFn] at h
  | .file _ mt, acc, path, r, h => by
    simp only [walk, localWalkFn, Bool.not_false, if_true, Panics.done.injEq] at h
    rw [← h]
  | .dir _ mt readErr children, acc, path, r, h => by
    simp only [walk, localWalkFn, Bool.not_true, Bool.false_eq_true, if_false] at h
    by_cases hr : readErr.isSome = true
    · simp only [hr, Option.isSome_none, Bool.false_eq_true, or_false, if_true,
        Panics.done.injEq] at h
      rw [← h]
    · simp only [hr, Option.isSome_none, Bool.false_eq_true, or_false, if_false] at h
      exact walkNames_localWalkFn_nil children acc path r h
/-- The loop over the names with the closure of `getLocalFileList`, when it
returns, returns nil. -/
theorem walkNames_localWalkFn_nil :
    ∀ (ns : List Node) (acc : Inventory) (path : String) (r : Inventory × Option WalkErr),
      walkNames localWalkFn acc path ns = .done r → r.2 = none
  | [], acc, path, r, h => by
    simp only [walkNames, Panics.done.injEq] at h
    rw [← h]
  | n :: rest, acc, path, r, h => by
    simp only [walkNames] at h
    cases hw : walk localWalkFn acc (pathJoin path n.name) n with
    | panic m => simp [hw] at h
    | done r1 =>
      have h1 := walk_localWalkFn_nil n acc (pathJoin path n.name) r1 hw
      obtain ⟨acc1, err⟩ := r1
      simp only at h1
      subst h1
      have hs : stopsWalk n none = false := by
        cases n <;> simp [stopsWalk]
      simp only [hw, hs, Bool.false_eq_true, if_false] at h
      exact walkNames_localWalkFn_nil rest acc1 path r h
end

/-- Whatever the traversal meets, `getLocalFileList` returns no error: it either
panics or returns a file list with a nil error. -/
theorem getLocalFileList_err_nil (fs : FileSystem) (pfx : String) (files : Inventory)
    (err : Option String) (h : getLocalFileList fs pfx = .done (files, err)) : err = none := by
  unfold getLocalFileList Walk at h
  cases hw : walk localWalkFn [] pfx (fs.Tree pfx) with
  | panic m => simp [hw] at h
  | done r =>
    have h1 := walk_localWalkFn_nil _ _ _ r hw
    obtain ⟨acc1, e1⟩ := r
    simp only at h1
    subst h1
    simp only [hw, Panics.done.injEq, Prod.mk.injEq] at h
    exact h.2.symm

/-! ## Supporting facts about `main` -/

/-- A destination prefix whose first character is not `/` ends the run with the
fatal configuration error right after the check of the source path. -/
theorem main_rejects_destPrefix {σ : Type} (cfg : Config) (prog sourcePath destPrefix : String)
    (fs : FileSystem) (dbx : Client σ) (order : Inventory → List (String × Time))
    (fuel : Nat) (s0 : σ) (info : FileInfo) (c : Char) (cs : List Char)
    (hstat : fs.Stat sourcePath = .ok info) (hdir : info.IsDir = true)
    (hdata : destPrefix.data = c :: cs) (hc : c ≠ '/') :
    main cfg [prog, sourcePath, destPrefix] fs dbx order fuel s0 =
      some ⟨.fatal (.destPrefix destPrefix), [], [.stat sourcePath none], s0⟩ := by
  simp [main, hstat, hdir, hdata, hc]

/-- The empty destination prefix makes the check itself panic. -/
theorem main_empty_destPrefix {σ : Type} (cfg : Config) (prog sourcePath : String)
    (fs : FileSystem) (dbx : Client σ) (order : Inventory → List (String × Time))
    (fuel : Nat) (s0 : σ) (info : FileInfo)
    (hstat : fs.Stat sourcePath = .ok info) (hdir : info.IsDir = true) :
    main cfg [prog, sourcePath, ""] fs dbx order fuel s0 =
      some ⟨.panic "index out of range [0] with length 0", [], [.stat sourcePath none], s0⟩ := by
  simp [main, hstat, hdir]

/-- An error of the remote listing ends the run before the local walk. -/
theorem main_aborts_on_listing_error {σ : Type} (cfg : Config) (prog sourcePath destPrefix : String)
    (fs : FileSystem) (dbx : Client σ) (order : Inventory → List (String × Time))
    (fuel : Nat) (s0 : σ) (info : FileInfo) (cs : List Char) (r : Outcome σ Inventory)
    (e : String)
    (hstat : fs.Stat sourcePath = .ok info) (hdir : info.IsDir = true)
    (hdata : destPrefix.data = '/' :: cs)
    (hr : getRemoteFileList dbx fuel s0 destPrefix = some r) (he : r.err = some e) :
    main cfg [prog, sourcePath, destPrefix] fs dbx order fuel s0 =
      some ⟨.fatal (.remoteFileList e), [], [.stat sourcePath none] ++ r.trace, r.state⟩ := by
  simp [main, hstat, hdir, hdata, hr, he]

/-- After an upload of a file modified at `lmt`, the remote time is `lmt` cut to
whole seconds, and the guard of the loop skips the file exactly when `lmt` has
no sub-second part. -/
theorem skips_after_upload (dest : String) (lmt : Time) :
    skips [(dest, timeUnix lmt.Unix)] false dest lmt = true ↔ lmt.nsec = 0 := by
  simp [skips, Inventory.get, Time.Before, timeUnix, Time.Unix]

/-! ## Evaluations on concrete inputs -/

/-- C2 (destination path), evaluated for the source directory `.` holding `a.txt`
and `sub/b.txt` and the prefix `/backup`: the walk yields `a.txt` and
`sub/b.txt`; `strings.Replace` removes every occurrence of the source path `.`,
so the computed destinations are `/backup/atxt` and `/backup/sub/btxt`, while
the prefix joined with the relative paths is `/backup/a.txt` and
`/backup/sub/b.txt`; the run uploads to the computed destinations. -/
theorem destination_with_dot_source :
    getLocalFileList dotFS "." =
        .done ([("a.txt", timeUnix 1700000001), ("sub/b.txt", timeUnix 1700000002)], none) ∧
      destOf "/backup" "." "a.txt" = "/backup/atxt" ∧
      destOf "/backup" "." "sub/b.txt" = "/backup/sub/btxt" ∧
      pathJoin "/backup" "a.txt" = "/backup/a.txt" ∧
      pathJoin "/backup" "sub/b.txt" = "/backup/sub/b.txt" ∧
      (main ⟨false, false⟩ ["dbx-sync", ".", "/backup"] dotFS memoryClient
          listOrder 4 []).map (fun r => (r.exit, r.calls)) =
        some (.success, [⟨"a.txt", "/backup/atxt", none⟩,
          ⟨"sub/b.txt", "/backup/sub/btxt", none⟩]) := by
  refine ⟨?_, ?_, ?_, ?_, ?_, ?_⟩ <;> decide

/-- C10 (distinct destinations), evaluated for the source directory `src` holding
`src/x.txt` and `x.txt` and the prefix `/backup`: the walk yields the two
distinct local paths `src/src/x.txt` and `src/x.txt`, both get the destination
`/backup/x.txt`, and the run uploads both files there, leaving one remote
entry. -/
theorem destinations_collide :
    getLocalFileList nestedFS "src" =
        .done ([("src/src/x.txt", timeUnix 1700000001), ("src/x.txt", timeUnix 1700000002)],
          none) ∧
      ("src/src/x.txt" : String) ≠ "src/x.txt" ∧
      destOf "/backup" "src" "src/src/x.txt" = "/backup/x.txt" ∧
      destOf "/backup" "src" "src/x.txt" = "/backup/x.txt" ∧
      (main ⟨false, false⟩ ["dbx-sync", "src", "/backup"] nestedFS memoryClient
          listOrder 4 []).map (fun r => (r.exit, r.calls, r.state.map Prod.fst)) =
        some (.success, [⟨"src/src/x.txt", "/backup/x.txt", none⟩,
          ⟨"src/x.txt", "/backup/x.txt", none⟩], ["/backup/x.txt"]) := by
  refine ⟨?_, ?_, ?_, ?_, ?_⟩ <;> decide

/-- C3 (idempotence), evaluated for `/data/a.txt` modified at 1700000100.5 s, the
prefix `/backup`, an empty remote store and force-overwrite unset: the first
run uploads the file and the store then holds 1700000100 s for
`/backup/a.txt`, the time `uploadFile` sent; the second run over the unchanged
directory finds that time before the local one and uploads the file again. -/
theorem second_run_uploads_again :
    (main ⟨false, false⟩ ["dbx-sync", "/data", "/backup"] dataFS memoryClient listOrder 4
          []).map (fun r => (r.exit, r.calls, r.state)) =
        some (.success, [⟨"/data/a.txt", "/backup/a.txt", none⟩],
          [("/backup/a.txt", timeUnix 1700000100)]) ∧
      (main ⟨false, false⟩ ["dbx-sync", "/data", "/backup"] dataFS memoryClient listOrder 4
          [("/backup/a.txt", timeUnix 1700000100)]).map (fun r => (r.exit, r.calls)) =
        some (.success, [⟨"/data/a.txt", "/backup/a.txt", none⟩]) := by
  refine ⟨?_, ?_⟩ <;> decide

/-- C5 (errors of the walk), evaluated for the directory `src` holding `a.txt`,
the unreadable directory `secret` and `z.txt`: the traversal calls the walk
function for `src/secret` with the read error, yet `getLocalFileList` returns
the list without the files below `secret` together with a nil error, and the run
ends in success; for a directory entry whose `Lstat` fails the closure panics
instead of returning the error. -/
theorem walk_error_not_returned :
    Walk recordWalkFn [] "src" lockedTree =
        .done ([("src", some ⟨true, timeUnix 1700000000⟩, none),
          ("src/a.txt", some ⟨false, timeUnix 1700000001⟩, none),
          ("src/secret", some ⟨true, timeUnix 1700000000⟩,
            some "open src/secret: permission denied"),
          ("src/z.txt", some ⟨false, timeUnix 1700000002⟩, none)], none) ∧
      getLocalFileList lockedFS "src" =
        .done ([("src/a.txt", timeUnix 1700000001), ("src/z.txt", timeUnix 1700000002)],
          none) ∧
      (main ⟨false, false⟩ ["dbx-sync", "src", "/backup"] lockedFS memoryClient
          listOrder 4 []).map (fun r => (r.exit, r.calls)) =
        some (.success, [⟨"src/a.txt", "/backup/a.txt", none⟩,
          ⟨"src/z.txt", "/backup/z.txt", none⟩]) ∧
      getLocalFileList brokenFS "src" =
        .panic "invalid memory address or nil pointer dereference" := by
  refine ⟨?_, ?_, ?_, ?_⟩ <;> decide

/-- C6 (validation of the destination prefix), evaluated for an existing source
directory and the empty destination prefix: the check `destPrefix[0] != '/'`
panics with an index out of range; the fatal configuration error is not
reached. -/
theorem empty_destPrefix_panics :
    (main ⟨false, false⟩ ["dbx-sync", "/data", ""] dataFS memoryClient listOrder 4 []).map
        (fun r => (r.exit, r.trace)) =
      some (.panic "index out of range [0] with length 0", [.stat "/data" none]) := by
  decide

/-! ## Instances of the general theorems -/

/-- Instance of C1: on equal timestamps with force-overwrite unset the guard
holds and the loop passes over the entry. -/
theorem reconciler_decision_witness :
    skips [("/backup/a.txt", halfPast)] false (destOf "/backup" "/data" "/data/a.txt")
        halfPast = true ∧
      uploadLoop ⟨false, false⟩ memoryClient dataFS "/data" "/backup"
          [("/backup/a.txt", halfPast)] [("/data/a.txt", halfPast)] [] =
        uploadLoop ⟨false, false⟩ memoryClient dataFS "/data" "/backup"
          [("/backup/a.txt", halfPast)] [] [] :=
  ⟨by decide,
    (reconciler_decision ⟨false, false⟩ memoryClient dataFS "/data" "/backup"
      [("/backup/a.txt", halfPast)] "/data/a.txt" halfPast [] []).2.2 (by decide)⟩

/-- Instance of C7: two local files, the server refuses the first upload; the
run ends with the fatal upload error, one `Upload` request was issued, for the
first file, and nothing is invoked or requested after it.  With a server that
accepts, the one selected file gets exactly one `Upload` request. -/
theorem upload_loop_contract_witness :
    (([("/data/a.txt", halfPast), ("/data/b.txt", halfPast)] : List (String × Time)).map
        Prod.fst).Nodup ∧
      (uploadLoop ⟨false, false⟩ refusingClient dataFS "/data" "/backup" []
          [("/data/a.txt", halfPast), ("/data/b.txt", halfPast)] 0).calls =
        [] ++ ⟨"/data/a.txt", "/backup/a.txt", some "too_many_write_operations/.."⟩ :: [] ∧
      (uploadLoop ⟨false, false⟩ refusingClient dataFS "/data" "/backup" []
          [("/data/a.txt", halfPast), ("/data/b.txt", halfPast)] 0).exit =
        .fatal (.upload "/backup/a.txt" "too_many_write_operations/..") ∧
      (uploadLoop ⟨false, false⟩ refusingClient dataFS "/data" "/backup" []
          [("/data/a.txt", halfPast), ("/data/b.txt", halfPast)] 0).trace =
        [.stat "/data/a.txt" none, .fileOpen "/data/a.txt" none,
          .upload ⟨"/backup/a.txt", .overwrite, timeUnix 1700000100⟩ "hello"
            (some "too_many_write_operations/.."),
          .fileClose "/data/a.txt"] ∧
      (uploadLoop ⟨false, false⟩ refusingClient dataFS "/data" "/backup" []
          [("/data/a.txt", halfPast), ("/data/b.txt", halfPast)] 0).state = 1 ∧
      uploadPaths (uploadLoop ⟨false, false⟩ memoryClient dataFS "/data" "/backup" []
          [("/data/a.txt", halfPast)] []).trace = ["/backup/a.txt"] :=
  have hfail := upload_loop_contract ⟨false, false⟩ refusingClient dataFS "/data" "/backup" []
    [("/data/a.txt", halfPast), ("/data/b.txt", halfPast)] 0 (by decide)
  have hcalls : (uploadLoop ⟨false, false⟩ refusingClient dataFS "/data" "/backup" []
      [("/data/a.txt", halfPast), ("/data/b.txt", halfPast)] 0).calls =
      [] ++ ⟨"/data/a.txt", "/backup/a.txt", some "too_many_write_operations/.."⟩ :: [] := by
    decide
  have hrun := hfail.2.2.2.2.2.1
  ⟨by decide, hcalls,
    (hfail.2.2.2.2.1 [] ⟨"/data/a.txt", "/backup/a.txt", some "too_many_write_operations/.."⟩
      [] "too_many_write_operations/.." hcalls rfl).2,
    (congrArg (fun x => x.2.1) hrun).symm.trans (by rw [hcalls]; rfl),
    (congrArg (fun x => x.2.2) hrun).symm.trans (by rw [hcalls]; rfl),
    (upload_loop_contract ⟨false, false⟩ memoryClient dataFS "/data" "/backup" []
      [("/data/a.txt", halfPast)] [] (by decide)).2.2.2.2.2.2.2 (by decide)⟩

/-- Instance of C8: a listing of two pages; the file listed on both pages has the
time of its later entry, the folder has no key. -/
theorem remote_accumulation_witness :
    Pages pagedClient 1 pageOne [pageTwo] ∧
      ∃ r, getRemoteFileList pagedClient 2 0 "/backup" = some r ∧ r.err = none ∧
        r.val.get "/backup/a.txt" = some (timeUnix 300) ∧
        r.val.get "/backup/sub/b.txt" = some (timeUnix 200) ∧
        r.val.get "/backup/sub" = none := by
  refine ⟨⟨rfl, rfl, rfl⟩, ?_⟩
  obtain ⟨r, h1, h2, _, _, h5, _⟩ :=
    remote_accumulation pagedClient 0 "/backup" pageOne [pageTwo] 2 rfl ⟨rfl, rfl, rfl⟩
      (by decide)
  refine ⟨r, h1, h2, ?_, ?_, ?_⟩
  · rw [h5]; decide
  · rw [h5]; decide
  · rw [h5]; decide

/-- Instance of C4: a listing request answered as not found gives the empty
inventory and no error; another error of the listing request is returned; an
error of a continuation request is returned, here even one reporting the path
as not found. -/
theorem remote_listing_errors_witness :
    getRemoteFileList memoryClient 0 [] "/backup" =
        some ⟨[], none, [], [.listFolder ⟨"/backup", true⟩ (some "path/not_found/..")]⟩ ∧
      getRemoteFileList refusingClient 0 0 "/backup" =
        some ⟨[], some "too_many_requests/..", 1,
          [.listFolder ⟨"/backup", true⟩ (some "too_many_requests/..")]⟩ ∧
      ∃ r, getRemoteFileList vanishingClient 1 0 "/backup" = some r ∧
        r.err = some "path/not_found/.." :=
  ⟨(remote_listing_errors memoryClient 0 [] "/backup").1 "path/not_found/.." rfl (by decide),
    (remote_listing_errors refusingClient 0 0 "/backup").2.1 "too_many_requests/.." rfl
      (by decide),
    (remote_listing_errors vanishingClient 1 0 "/backup").2.2.1 pageOne []
      "path/not_found/.." rfl ⟨rfl, rfl⟩ (by decide)⟩

end DbxSync
